import Mathlib

set_option maxHeartbeats 1000000

/-!
Verification of the flask_servatus storage module
(flask_servatus/storages/__init__.py), shallowly embedded in Lean 4.

Paths and file names are modelled as `List Char` and file contents as
`List Nat` (byte values).  Python while-loops that are not structurally
recursive are embedded with an explicit fuel argument; the fuel chosen at
every call site provably suffices, so `none` marks only the unbounded
continuation of the original loop.  Library helpers called by the module
(posixpath.normpath, posixpath.join, os.path.split, os.path.splitext,
flask.safe_join, werkzeug.secure_filename, os.makedirs, os.mkdir,
os.remove) are not part of this repository; they are modelled here from
their documented behaviour, following the algorithms of the CPython,
Flask and Werkzeug sources (safe_join is modelled from the spec's
description: a safe-join algorithm rejecting results that escape the
base directory, as implemented by Flask).  The filesystem is modelled as
an association list from absolute paths to entries, and the fallible
calls inside `_save` (the advisory lock and the reads of the content
stream) are modelled by explicit outcome parameters so that the
try/finally control flow of the source can be stated and proved.
-/

/-- Splits a character list at every occurrence of the separator
character, mirroring Python str.split(sep): the result always has at
least one (possibly empty) piece. -/
def splitSep (sep : Char) : List Char → List (List Char)
  | [] => [[]]
  | c :: cs =>
    if c = sep then [] :: splitSep sep cs
    else
      match splitSep sep cs with
      | [] => [[c]]
      | r :: rs => (c :: r) :: rs

/-- Joins pieces with a separator character, mirroring Python
sep.join(pieces). -/
def joinSep (sep : Char) : List (List Char) → List Char
  | [] => []
  | [x] => x
  | x :: y :: rest => x ++ sep :: joinSep sep (y :: rest)

/-- A path component that posixpath.normpath keeps: neither empty nor a
single dot. -/
def okCompB (c : List Char) : Bool := if c = [] ∨ c = ['.'] then false else true

/-- The component loop of posixpath.normpath (CPython): skips empty and
`.` components, appends ordinary components, and resolves `..` against
the accumulated components (keeping leading `..` only for relative
paths). -/
def normComps (hasSlash : Bool) : List (List Char) → List (List Char) → List (List Char)
  | acc, [] => acc
  | acc, comp :: rest =>
    if comp = [] ∨ comp = ['.'] then normComps hasSlash acc rest
    else if comp ≠ ['.', '.'] ∨ (hasSlash = false ∧ acc = []) ∨ acc.getLast? = some ['.', '.'] then
      normComps hasSlash (acc ++ [comp]) rest
    else if acc = [] then normComps hasSlash acc rest
    else normComps hasSlash acc.dropLast rest

/-- posixpath.normpath: collapses separators and `.`/`..` components,
preserving one or two leading slashes. -/
def normpath (p : List Char) : List Char :=
  if p = [] then ['.']
  else
    let islashes : Nat :=
      if p.take 1 ≠ ['/'] then 0
      else if p.take 2 = ['/', '/'] ∧ p.take 3 ≠ ['/', '/', '/'] then 2
      else 1
    let nc := normComps (decide (0 < islashes)) [] (splitSep '/' p)
    let out := List.replicate islashes '/' ++ joinSep '/' nc
    if out = [] then ['.'] else out

/-- posixpath.isabs: a path is absolute when it starts with a slash. -/
def isabs (p : List Char) : Bool := p.take 1 = ['/']

/-- posixpath.join restricted to two arguments, as used by the module. -/
def pjoin (a b : List Char) : List Char :=
  if isabs b then b
  else if a = [] ∨ a.getLast? = some '/' then a ++ b
  else a ++ '/' :: b

/-- Error raised by FileSystemStorage.path, translated from the module's
SuspiciousFileOperation exception. -/
inductive StorageErr
  | suspiciousFileOperation
  deriving DecidableEq

/-- Modelled from the spec: flask.safe_join, the safe-join algorithm used
by FileSystemStorage.path.  It normalizes the untrusted name and rejects
it when the normalized form is absolute, is `..`, or begins with `../` —
exactly the names whose join would escape the base directory.  It is pure
string manipulation and performs no filesystem call. -/
def safe_join (directory fname : List Char) : Option (List Char) :=
  let f := if fname = [] then [] else normpath fname
  if isabs f ∨ f = ['.', '.'] ∨ f.take 3 = ['.', '.', '/'] then none
  else some (pjoin directory f)

/-- FileSystemStorage.path: joins `name` under the storage location with
safe_join, converting its rejection into SuspiciousFileOperation, and
normalizes the result. -/
def FileSystemStorage.path (location name : List Char) : Except StorageErr (List Char) :=
  match safe_join location name with
  | none => Except.error StorageErr.suspiciousFileOperation
  | some p => Except.ok (normpath p)

/-- os.path.split (posixpath.split): splits off the final path segment;
the head keeps its trailing slashes only when it consists of slashes. -/
def ospath_split (p : List Char) : List Char × List Char :=
  let tail := (p.reverse.takeWhile (fun c => decide (c ≠ '/'))).reverse
  let head := p.take (p.length - tail.length)
  if head = [] ∨ head.all (fun c => decide (c = '/')) then (head, tail)
  else ((head.reverse.dropWhile (fun c => decide (c = '/'))).reverse, tail)

/-- os.path.dirname: the head of os.path.split. -/
def ospath_dirname (p : List Char) : List Char := (ospath_split p).1

/-- os.path.splitext (posixpath.splitext): splits off the extension at
the last dot of the final segment, unless that segment consists of
leading dots up to there. -/
def splitext (p : List Char) : List Char × List Char :=
  let base := (p.reverse.takeWhile (fun c => decide (c ≠ '/'))).reverse
  let leading := base.takeWhile (fun c => decide (c = '.'))
  let rest := base.drop leading.length
  if rest.contains '.' then
    let extLen := (rest.reverse.takeWhile (fun c => decide (c ≠ '.'))).length + 1
    (p.take (p.length - extLen), p.drop (p.length - extLen))
  else (p, [])

/-- Python str.split() whitespace characters. -/
def isPyWS (c : Char) : Bool :=
  (c == ' ') || (c == '\t') || (c == '\n') || (c == '\x0d') || (c == '\x0b') || (c == '\x0c')

/-- Characters kept by werkzeug's secure_filename (the complement of its
stripping regular expression [^A-Za-z0-9_.-]). -/
def allowedChar (c : Char) : Bool :=
  decide (('A' ≤ c ∧ c ≤ 'Z') ∨ ('a' ≤ c ∧ c ≤ 'z') ∨ ('0' ≤ c ∧ c ≤ '9') ∨ c = '_' ∨ c = '.' ∨ c = '-')

/-- Splits a character list at every character satisfying the predicate. -/
def splitWhen (p : Char → Bool) : List Char → List (List Char)
  | [] => [[]]
  | c :: cs =>
    if p c then [] :: splitWhen p cs
    else
      match splitWhen p cs with
      | [] => [[c]]
      | r :: rs => (c :: r) :: rs

/-- Strips the given characters from both ends, mirroring Python
str.strip(chars). -/
def stripBoth (bad : List Char) (l : List Char) : List Char :=
  ((l.dropWhile (fun c => bad.contains c)).reverse.dropWhile (fun c => bad.contains c)).reverse

/-- werkzeug.secure_filename on the posix platform, for ASCII input (the
NFKD/ASCII step of the original is the identity there): path separators
become spaces, whitespace runs are joined with underscores, characters
outside [A-Za-z0-9_.-] are removed, and leading/trailing dots and
underscores are stripped. -/
def secure_filename (s : List Char) : List Char :=
  let s1 := s.map (fun c => if c = '/' then ' ' else c)
  let words := (splitWhen isPyWS s1).filter (fun w => decide (w ≠ []))
  let joined := joinSep '_' words
  let kept := joined.filter allowedChar
  stripBoth ['.', '_'] kept

/-- The sequence of names probed by Storage.get_available_name: the
desired name first, then dir/stem_k+ext for k = 1, 2, ... with stem and
extension taken from the split of the secure_filename of the desired
name (as the source does). -/
def ganCand (name : List Char) : Nat → List Char
  | 0 => name
  | Nat.succ k =>
    let sec := secure_filename name
    let dn := (ospath_split sec).1
    let fn := (ospath_split sec).2
    let fr := (splitext fn).1
    let fe := (splitext fn).2
    pjoin dn (fr ++ '_' :: (Nat.toDigits 10 (k + 1) ++ fe))

/-- The while-loop of Storage.get_available_name: probes candidate k and
moves to candidate k+1 while the probe reports an existing entry.  The
fuel argument bounds the number of iterations of the unbounded source
loop. -/
def ganLoop (ex : List (List Char)) (cand : Nat → List Char) : Nat → Nat → Option (List Char)
  | 0, k => if cand k ∈ ex then none else some (cand k)
  | Nat.succ f, k => if cand k ∈ ex then ganLoop ex cand f (k + 1) else some (cand k)

/-- Storage.get_available_name: existence on the backing store is
modelled by membership in the finite list `ex` of occupied names. -/
def get_available_name (ex : List (List Char)) (fuel : Nat) (name : List Char) : Option (List Char) :=
  ganLoop ex (ganCand name) fuel 0

/-- A readable source for chunked_iterator: its remaining bytes start at
`pos` within `data`; `seekable` tells whether content.seek(0) succeeds
(its absence is not an error in the source). -/
structure ByteStream where
  data : List Nat
  pos : Nat
  seekable : Bool
  deriving DecidableEq

/-- The read loop of chunked_iterator: read up to `cs` bytes, stop on an
empty read, yield every non-empty read.  The fuel argument bounds the
unbounded source loop; `xs.length` suffices whenever `cs` is nonzero. -/
def chunkRead : Nat → Nat → List Nat → List (List Nat)
  | 0, _, _ => []
  | Nat.succ f, cs, xs => if xs.take cs = [] then [] else xs.take cs :: chunkRead f cs (xs.drop cs)

/-- chunked_iterator: defaults a falsy chunk_size to 64 * 2 ^ 10, rewinds
the source to position zero when it is seekable, then yields reads of up
to chunk_size bytes until a zero-length read. -/
def chunked_iterator (s : ByteStream) (chunk_size : Option Nat) : List (List Nat) :=
  let cs := match chunk_size with
    | none => 65536
    | some c => if c = 0 then 65536 else c
  let d := if s.seekable then s.data else s.data.drop s.pos
  chunkRead d.length cs d

/-- A filesystem entry: a regular file with its bytes, or a directory. -/
inductive Entry
  | file (bytes : List Nat)
  | dir
  deriving DecidableEq

/-- The filesystem state: an association list from absolute paths to
entries, newest first. -/
structure FS where
  entries : List (List Char × Entry)
  deriving DecidableEq

/-- Looks up the entry at a path. -/
def FS.lookup (fs : FS) (p : List Char) : Option Entry :=
  (fs.entries.find? (fun e => decide (e.1 = p))).map (fun e => e.2)

/-- Creates or replaces the entry at a path. -/
def FS.insert (fs : FS) (p : List Char) (e : Entry) : FS := ⟨(p, e) :: fs.entries⟩

/-- Removes the entry at a path. -/
def FS.erase (fs : FS) (p : List Char) : FS := ⟨fs.entries.filter (fun e => decide (e.1 ≠ p))⟩

/-- os.path.exists. -/
def os_path_exists (fs : FS) (p : List Char) : Bool := (FS.lookup fs p).isSome

/-- os.path.isdir. -/
def os_path_isdir (fs : FS) (p : List Char) : Bool :=
  match FS.lookup fs p with
  | some Entry.dir => true
  | _ => false

/-- errno.EEXIST. -/
def eEXIST : Nat := 17

/-- errno.ENOENT. -/
def eNOENT : Nat := 2

/-- errno.ENOTDIR. -/
def eNOTDIR : Nat := 20

/-- os.mkdir: fails with EEXIST when the path already names an entry,
with ENOTDIR or ENOENT when the parent is not an existing directory
(a nonexistent parent head means a relative path, created as such). -/
def os_mkdir (fs : FS) (p : List Char) : FS × Option Nat :=
  if os_path_exists fs p then (fs, some eEXIST)
  else
    let parent := ospath_dirname p
    if parent = [] ∨ os_path_isdir fs parent then (FS.insert fs p Entry.dir, none)
    else if os_path_exists fs parent then (fs, some eNOTDIR)
    else (fs, some eNOENT)

/-- The recursion of os.makedirs (CPython): create the missing ancestor
chain, swallowing EEXIST from the recursive step, then mkdir the path
itself.  The fuel argument bounds the recursion; the path length
suffices because each recursive call strictly shortens the path. -/
def makedirsAux : Nat → FS → List Char → FS × Option Nat
  | 0, fs, p => os_mkdir fs p
  | Nat.succ f, fs, p =>
    let s0 := ospath_split p
    let s := if s0.2 = [] then ospath_split s0.1 else s0
    if s.1 ≠ [] ∧ s.2 ≠ [] ∧ os_path_exists fs s.1 = false then
      let r := makedirsAux f fs s.1
      match r.2 with
      | some e =>
        if e ≠ eEXIST then (r.1, some e)
        else if s.2 = ['.'] then (r.1, none) else os_mkdir r.1 p
      | none => if s.2 = ['.'] then (r.1, none) else os_mkdir r.1 p
    else os_mkdir fs p

/-- os.makedirs. -/
def makedirs (fs : FS) (p : List Char) : FS × Option Nat := makedirsAux p.length fs p

/-- A chunk yielded by the content iterator inside _save: Python bytes or
text, carrying its payload as byte values either way. -/
inductive Chunk
  | bytes (data : List Nat)
  | text (data : List Nat)
  deriving DecidableEq

/-- The payload of a chunk. -/
def Chunk.payload : Chunk → List Nat
  | Chunk.bytes d => d
  | Chunk.text d => d

/-- Whether a chunk is a Python bytes object. -/
def Chunk.isBytes : Chunk → Bool
  | Chunk.bytes _ => true
  | Chunk.text _ => false

/-- The write mode chosen by _save when opening the descriptor with
os.fdopen. -/
inductive WMode
  | wb
  | wt
  deriving DecidableEq

/-- The failure modes of FileSystemStorage._save: SuspiciousFileOperation
from path resolution, an OSError from os.makedirs, the IOError raised
when the parent exists but is not a directory, EEXIST from the exclusive
os.open, and any exception raised while locking or streaming chunks. -/
inductive SaveErr
  | suspicious
  | osError (e : Nat)
  | notADirectory
  | alreadyExists
  | writeFailure
  deriving DecidableEq

/-- The complete outcome of a _save call: the final filesystem, the
returned name or raised error, and the resource state on exit (advisory
lock held, descriptor open, content stream closed, fdopen mode used). -/
structure SaveResult where
  fs : FS
  result : Except SaveErr (List Char)
  locked : Bool
  fdOpen : Bool
  contentClosed : Bool
  modeUsed : Option WMode

/-- The chunk-writing loop of _save: on the first chunk it selects the
fdopen mode from the chunk's type ('wb' for bytes, 'wt' otherwise), then
appends every payload in order; a failed read aborts the loop.  Returns
the mode used, the bytes written so far, and whether the loop finished
without an exception. -/
def bodyLoop : List (Except Unit Chunk) → Option WMode → List Nat → Option WMode × List Nat × Bool
  | [], m, w => (m, w, true)
  | Except.error _ :: _, m, w => (m, w, false)
  | Except.ok c :: rest, m, w =>
    let m2 := match m with
      | some mm => some mm
      | none => some (if c.isBytes then WMode.wb else WMode.wt)
    bodyLoop rest m2 (w ++ c.payload)

/-- The bytes written by the chunk loop before its first failed read. -/
def writtenPrefix : List (Except Unit Chunk) → List Nat
  | [] => []
  | Except.error _ :: _ => []
  | Except.ok c :: rest => c.payload ++ writtenPrefix rest

/-- The bytes left in the file when _save fails while locking or
streaming: nothing if the lock acquisition itself failed, otherwise the
payloads read before the failure. -/
def writtenOnFailure (lockOk : Bool) (events : List (Except Unit Chunk)) : List Nat :=
  if lockOk then writtenPrefix events else []

/-- FileSystemStorage._save.  The advisory-lock acquisition outcome is
the parameter `lockOk`, and the successive reads of the content stream
are the parameter `events` (a failed read models an exception raised
while streaming).  The try/finally of the source is reflected in the
outcome: once the descriptor is opened, every exit path closes the
content stream, releases the lock and closes the descriptor, and leaves
the file (with whatever was written) on disk; error exits before the
os.open leave the stream untouched. -/
def FileSystemStorage._save (fs : FS) (location name : List Char) (lockOk : Bool)
    (events : List (Except Unit Chunk)) : SaveResult :=
  match FileSystemStorage.path location name with
  | Except.error _ => ⟨fs, Except.error SaveErr.suspicious, false, false, false, none⟩
  | Except.ok full_path =>
    let directory := ospath_dirname full_path
    let made : FS × Option Nat :=
      if os_path_exists fs directory then (fs, none)
      else
        let md := makedirs fs directory
        match md.2 with
        | some e => if e = eEXIST then (md.1, none) else (md.1, some e)
        | none => (md.1, none)
    match made.2 with
    | some e => ⟨made.1, Except.error (SaveErr.osError e), false, false, false, none⟩
    | none =>
      let fs1 := made.1
      if os_path_isdir fs1 directory = false then
        ⟨fs1, Except.error SaveErr.notADirectory, false, false, false, none⟩
      else if os_path_exists fs1 full_path then
        ⟨fs1, Except.error SaveErr.alreadyExists, false, false, false, none⟩
      else
        let body := if lockOk then bodyLoop events none [] else (none, [], false)
        ⟨FS.insert fs1 full_path (Entry.file body.2.1),
         if body.2.2 then Except.ok name else Except.error SaveErr.writeFailure,
         false, false, true, body.1⟩

/-- The failure modes of FileSystemStorage.delete: the assertion on an
empty name, SuspiciousFileOperation from path resolution, and an OSError
from os.remove whose errno is not ENOENT. -/
inductive DelErr
  | assertionError
  | suspicious
  | osError (e : Nat)
  deriving DecidableEq

/-- FileSystemStorage.delete.  The outcome of the os.remove call, when it
is reached, is the parameter `removeErr` (none for success, some errno
for an OSError); an ENOENT error is swallowed as the source does. -/
def FileSystemStorage.delete (fs : FS) (location name : List Char) (removeErr : Option Nat) :
    Except DelErr FS :=
  if name = [] then Except.error DelErr.assertionError
  else
    match FileSystemStorage.path location name with
    | Except.error _ => Except.error DelErr.suspicious
    | Except.ok p =>
      if os_path_exists fs p then
        match removeErr with
        | some e => if e = eNOENT then Except.ok fs else Except.error (DelErr.osError e)
        | none => Except.ok (FS.erase fs p)
      else Except.ok fs

/-- A path component surviving normalization that neither re-enters nor
escapes: nonempty and none of the special components. -/
def okC (x : List Char) : Prop := x ≠ [] ∧ x ≠ ['.'] ∧ x ≠ ['.', '.']

/-- The shape invariant of normComps on relative paths: a run of leading
`..` components followed by ordinary components. -/
def ddRun (acc : List (List Char)) : Prop :=
  ∃ m N, acc = List.replicate m ['.', '.'] ++ N ∧ ∀ x ∈ N, okC x

/-- A path with a directory entry exists. -/
theorem isdir_exists (fs : FS) (p : List Char) (h : os_path_isdir fs p = true) :
    os_path_exists fs p = true := by
  unfold os_path_isdir at h
  unfold os_path_exists
  cases hl : FS.lookup fs p with
  | none => rw [hl] at h; simp at h
  | some e => simp [hl]

/-- Looking up a freshly inserted path returns the inserted entry. -/
theorem FS.lookup_insert (fs : FS) (p : List Char) (e : Entry) :
    FS.lookup (FS.insert fs p e) p = some e := by
  unfold FS.lookup FS.insert
  rw [List.find?_cons_of_pos _ (by simp)]
  rfl

/-- C10: delete called with an empty (falsy) name fails with an
AssertionError before any path resolution or filesystem access: the
outcome is the same for every filesystem state, storage location and
os.remove outcome, and differs from the PathTraversal and IOFailure
errors of the documented interface. -/
theorem c10_delete_empty_name (fs : FS) (loc : List Char) (removeErr : Option Nat) :
    FileSystemStorage.delete fs loc [] removeErr = Except.error DelErr.assertionError := by
  rfl

/-- C9: delete on a non-empty name that resolves inside the root but
names no existing entry returns success with no exception and leaves the
filesystem unchanged (the parent directory need not exist, since only
the resolved path itself is probed); when the entry exists, an os.remove
error other than ENOENT is propagated, while ENOENT is swallowed as
success. -/
theorem c9_delete_missing_noop (fs : FS) (loc name p : List Char) (removeErr : Option Nat)
    (hn : name ≠ []) (hp : FileSystemStorage.path loc name = Except.ok p) :
    (os_path_exists fs p = false →
      FileSystemStorage.delete fs loc name removeErr = Except.ok fs) ∧
    (∀ e, os_path_exists fs p = true → removeErr = some e → e ≠ eNOENT →
      FileSystemStorage.delete fs loc name removeErr = Except.error (DelErr.osError e)) ∧
    (os_path_exists fs p = true → removeErr = some eNOENT →
      FileSystemStorage.delete fs loc name removeErr = Except.ok fs) := by
  refine ⟨?_, ?_, ?_⟩
  · intro hne
    simp [FileSystemStorage.delete, hn, hp, hne]
  · intro e hex hre hnoent
    simp [FileSystemStorage.delete, hn, hp, hex, hre, hnoent]
  · intro hex hre
    simp [FileSystemStorage.delete, hn, hp, hex, hre]

/-- Witness for c9_delete_missing_noop: deleting a missing file from an
empty filesystem (its parent directory is missing too) succeeds and
changes nothing. -/
theorem c9_witness :
    FileSystemStorage.delete ⟨[]⟩ "/srv/media".toList "f.txt".toList none = Except.ok ⟨[]⟩ :=
  (c9_delete_missing_noop ⟨[]⟩ "/srv/media".toList "f.txt".toList "/srv/media/f.txt".toList none
    (by decide) (by rfl)).1 (by rfl)

/-- C2: when the resolved path already names an existing entry (in a
well-formed state where its parent is a directory), _save fails with the
EEXIST of the exclusive-create os.open before any write, the filesystem
is wholly unchanged, and in particular the pre-existing file's bytes are
untouched: the exclusive-create open can never truncate or modify an
existing file. -/
theorem c2_save_no_truncate (fs : FS) (loc name p : List Char) (b : List Nat) (lockOk : Bool)
    (events : List (Except Unit Chunk))
    (hp : FileSystemStorage.path loc name = Except.ok p)
    (hf : FS.lookup fs p = some (Entry.file b))
    (hd : os_path_isdir fs (ospath_dirname p) = true) :
    (FileSystemStorage._save fs loc name lockOk events).result =
      Except.error SaveErr.alreadyExists ∧
    (FileSystemStorage._save fs loc name lockOk events).fs = fs ∧
    FS.lookup (FileSystemStorage._save fs loc name lockOk events).fs p =
      some (Entry.file b) := by
  have hex : os_path_exists fs (ospath_dirname p) = true := isdir_exists _ _ hd
  have hexp : os_path_exists fs p = true := by simp [os_path_exists, hf]
  refine ⟨?_, ?_, ?_⟩ <;>
    simp [FileSystemStorage._save, hp, hex, hd, hexp, hf]

/-- Witness for c2_save_no_truncate: saving over an existing file fails
with AlreadyExists and leaves its bytes [1, 2, 3] in place. -/
theorem c2_witness :
    (FileSystemStorage._save ⟨[("/srv".toList, Entry.dir), ("/srv/f.txt".toList, Entry.file [1, 2, 3])]⟩
      "/srv".toList "f.txt".toList true [Except.ok (Chunk.bytes [9])]).result =
      Except.error SaveErr.alreadyExists ∧
    (FileSystemStorage._save ⟨[("/srv".toList, Entry.dir), ("/srv/f.txt".toList, Entry.file [1, 2, 3])]⟩
      "/srv".toList "f.txt".toList true [Except.ok (Chunk.bytes [9])]).fs =
      ⟨[("/srv".toList, Entry.dir), ("/srv/f.txt".toList, Entry.file [1, 2, 3])]⟩ ∧
    FS.lookup (FileSystemStorage._save ⟨[("/srv".toList, Entry.dir), ("/srv/f.txt".toList, Entry.file [1, 2, 3])]⟩
      "/srv".toList "f.txt".toList true [Except.ok (Chunk.bytes [9])]).fs "/srv/f.txt".toList =
      some (Entry.file [1, 2, 3]) :=
  c2_save_no_truncate ⟨[("/srv".toList, Entry.dir), ("/srv/f.txt".toList, Entry.file [1, 2, 3])]⟩
    "/srv".toList "f.txt".toList "/srv/f.txt".toList [1, 2, 3] true [Except.ok (Chunk.bytes [9])]
    (by rfl) (by rfl) (by rfl)

/-- When the events contain a failed read, the chunk loop aborts with
exactly the payloads read before the failure appended to the
accumulator. -/
theorem bodyLoop_err : ∀ (events : List (Except Unit Chunk)) (m : Option WMode) (w : List Nat),
    (∃ e, Except.error e ∈ events) →
    ∃ m2, bodyLoop events m w = (m2, w ++ writtenPrefix events, false)
  | [], _, _, h => by simp at h
  | Except.error e :: rest, m, w, _ => ⟨m, by simp [bodyLoop, writtenPrefix]⟩
  | Except.ok c :: rest, m, w, h => by
    have h' : ∃ e, Except.error e ∈ rest := by
      obtain ⟨e, he⟩ := h
      refine ⟨e, ?_⟩
      rcases List.mem_cons.mp he with h1 | h1
      · exact absurd h1 (by simp)
      · exact h1
    obtain ⟨m2, hm2⟩ := bodyLoop_err rest
      (match m with
        | some mm => some mm
        | none => some (if c.isBytes then WMode.wb else WMode.wt)) (w ++ c.payload) h'
    refine ⟨m2, ?_⟩
    simpa [bodyLoop, writtenPrefix, List.append_assoc] using hm2

/-- With a mode already selected and only successful reads, the chunk
loop appends every payload in order and finishes cleanly. -/
theorem bodyLoop_ok_some : ∀ (events : List (Except Unit Chunk)) (mm : WMode) (w : List Nat),
    (∀ ev ∈ events, ∃ c, ev = Except.ok c) →
    bodyLoop events (some mm) w = (some mm, w ++ writtenPrefix events, true)
  | [], mm, w, _ => by simp [bodyLoop, writtenPrefix]
  | ev :: rest, mm, w, h => by
    obtain ⟨c, hc⟩ := h ev (List.mem_cons_self _ _)
    subst hc
    have ih := bodyLoop_ok_some rest mm (w ++ c.payload)
      (fun e he => h e (List.mem_cons_of_mem _ he))
    simp [bodyLoop, writtenPrefix, ih, List.append_assoc]

/-- The bytes read from an all-successful event list are the payloads of
its chunks, concatenated in order. -/
theorem writtenPrefix_map_ok : ∀ chunks : List Chunk,
    writtenPrefix (chunks.map Except.ok) = (chunks.map Chunk.payload).flatten
  | [] => rfl
  | c :: rest => by simp [writtenPrefix, writtenPrefix_map_ok rest]

/-- On an all-successful event list the chunk loop selects the mode from
the first chunk's type, writes all payloads in order, and finishes. -/
theorem bodyLoop_map_ok (chunks : List Chunk) :
    bodyLoop (chunks.map Except.ok) none [] =
      ((chunks.head?).map (fun c => if c.isBytes then WMode.wb else WMode.wt),
       (chunks.map Chunk.payload).flatten, true) := by
  cases chunks with
  | nil => rfl
  | cons c rest =>
    have h := bodyLoop_ok_some (rest.map Except.ok) (if c.isBytes then WMode.wb else WMode.wt)
      c.payload (fun ev hev => by
        obtain ⟨d, _, hd2⟩ := List.mem_map.mp hev
        exact ⟨d, hd2.symm⟩)
    simp [bodyLoop, h, writtenPrefix_map_ok]

/-- C7: if an exception is raised while locking or while streaming
chunks in _save, then on exit the advisory lock is released, the file
descriptor is closed, the content stream is closed, the exception is
re-raised, and the partially written file is left on disk with exactly
the bytes written before the failure (no rollback or unlink). -/
theorem c7_cleanup_on_failure (fs : FS) (loc name p : List Char) (lockOk : Bool)
    (events : List (Except Unit Chunk))
    (hp : FileSystemStorage.path loc name = Except.ok p)
    (hne : os_path_exists fs p = false)
    (hd : os_path_isdir fs (ospath_dirname p) = true)
    (herr : lockOk = false ∨ ∃ e, Except.error e ∈ events) :
    (FileSystemStorage._save fs loc name lockOk events).result =
      Except.error SaveErr.writeFailure ∧
    (FileSystemStorage._save fs loc name lockOk events).locked = false ∧
    (FileSystemStorage._save fs loc name lockOk events).fdOpen = false ∧
    (FileSystemStorage._save fs loc name lockOk events).contentClosed = true ∧
    FS.lookup (FileSystemStorage._save fs loc name lockOk events).fs p =
      some (Entry.file (writtenOnFailure lockOk events)) := by
  have hex : os_path_exists fs (ospath_dirname p) = true := isdir_exists _ _ hd
  cases lockOk with
  | false =>
    refine ⟨?_, ?_, ?_, ?_, ?_⟩ <;>
      simp [FileSystemStorage._save, hp, hex, hd, hne, writtenOnFailure, FS.lookup_insert]
  | true =>
    have herr' : ∃ e, Except.error e ∈ events := by
      rcases herr with h | h
      · exact absurd h (by simp)
      · exact h
    obtain ⟨m2, hm2⟩ := bodyLoop_err events none [] herr'
    refine ⟨?_, ?_, ?_, ?_, ?_⟩ <;>
      simp [FileSystemStorage._save, hp, hex, hd, hne, hm2, writtenOnFailure, FS.lookup_insert]

/-- Witness for c7_cleanup_on_failure: a read failure after one chunk
leaves the lock released, everything closed, and the partial byte [1] on
disk. -/
theorem c7_witness :
    (FileSystemStorage._save ⟨[("/srv".toList, Entry.dir)]⟩ "/srv".toList "f.txt".toList true
      [Except.ok (Chunk.bytes [1]), Except.error ()]).result =
      Except.error SaveErr.writeFailure ∧
    (FileSystemStorage._save ⟨[("/srv".toList, Entry.dir)]⟩ "/srv".toList "f.txt".toList true
      [Except.ok (Chunk.bytes [1]), Except.error ()]).locked = false ∧
    (FileSystemStorage._save ⟨[("/srv".toList, Entry.dir)]⟩ "/srv".toList "f.txt".toList true
      [Except.ok (Chunk.bytes [1]), Except.error ()]).fdOpen = false ∧
    (FileSystemStorage._save ⟨[("/srv".toList, Entry.dir)]⟩ "/srv".toList "f.txt".toList true
      [Except.ok (Chunk.bytes [1]), Except.error ()]).contentClosed = true ∧
    FS.lookup (FileSystemStorage._save ⟨[("/srv".toList, Entry.dir)]⟩ "/srv".toList "f.txt".toList true
      [Except.ok (Chunk.bytes [1]), Except.error ()]).fs "/srv/f.txt".toList =
      some (Entry.file (writtenOnFailure true [Except.ok (Chunk.bytes [1]), Except.error ()])) :=
  c7_cleanup_on_failure ⟨[("/srv".toList, Entry.dir)]⟩ "/srv".toList "f.txt".toList
    "/srv/f.txt".toList true [Except.ok (Chunk.bytes [1]), Except.error ()]
    (by rfl) (by rfl) (by rfl) (Or.inr ⟨(), by simp⟩)

/-- C8: on a fully successful stream, _save writes every chunk of the
sequence into the file in order, preserving byte order exactly, and the
write mode passed to os.fdopen is selected from the type of the first
chunk: 'wb' when it is bytes, 'wt' otherwise (no mode when the stream is
empty, in which case the descriptor is closed directly). -/
theorem c8_write_order_and_mode (fs : FS) (loc name p : List Char) (chunks : List Chunk)
    (hp : FileSystemStorage.path loc name = Except.ok p)
    (hne : os_path_exists fs p = false)
    (hd : os_path_isdir fs (ospath_dirname p) = true) :
    (FileSystemStorage._save fs loc name true (chunks.map Except.ok)).result =
      Except.ok name ∧
    FS.lookup (FileSystemStorage._save fs loc name true (chunks.map Except.ok)).fs p =
      some (Entry.file ((chunks.map Chunk.payload).flatten)) ∧
    (FileSystemStorage._save fs loc name true (chunks.map Except.ok)).modeUsed =
      (chunks.head?).map (fun c => if c.isBytes then WMode.wb else WMode.wt) := by
  have hex : os_path_exists fs (ospath_dirname p) = true := isdir_exists _ _ hd
  have hbody := bodyLoop_map_ok chunks
  refine ⟨?_, ?_, ?_⟩ <;>
    simp [FileSystemStorage._save, hp, hex, hd, hne, hbody, FS.lookup_insert]

/-- Witness for c8_write_order_and_mode: two byte chunks are written in
order as [1, 2, 3, 4] and the mode is 'wb' from the first chunk. -/
theorem c8_witness :
    (FileSystemStorage._save ⟨[("/srv".toList, Entry.dir)]⟩ "/srv".toList "f.txt".toList true
      ([Chunk.bytes [1, 2], Chunk.bytes [3, 4]].map Except.ok)).result =
      Except.ok "f.txt".toList ∧
    FS.lookup (FileSystemStorage._save ⟨[("/srv".toList, Entry.dir)]⟩ "/srv".toList "f.txt".toList true
      ([Chunk.bytes [1, 2], Chunk.bytes [3, 4]].map Except.ok)).fs "/srv/f.txt".toList =
      some (Entry.file (([Chunk.bytes [1, 2], Chunk.bytes [3, 4]].map Chunk.payload).flatten)) ∧
    (FileSystemStorage._save ⟨[("/srv".toList, Entry.dir)]⟩ "/srv".toList "f.txt".toList true
      ([Chunk.bytes [1, 2], Chunk.bytes [3, 4]].map Except.ok)).modeUsed =
      ([Chunk.bytes [1, 2], Chunk.bytes [3, 4]].head?).map
        (fun c => if c.isBytes then WMode.wb else WMode.wt) :=
  c8_write_order_and_mode ⟨[("/srv".toList, Entry.dir)]⟩ "/srv".toList "f.txt".toList
    "/srv/f.txt".toList [Chunk.bytes [1, 2], Chunk.bytes [3, 4]]
    (by rfl) (by rfl) (by rfl)

/-- With nonzero chunk size and enough fuel, the read loop partitions
the source exactly: concatenating its yields gives back the data. -/
theorem chunkRead_flatten : ∀ (fuel cs : Nat) (xs : List Nat), cs ≠ 0 → xs.length ≤ fuel →
    (chunkRead fuel cs xs).flatten = xs
  | 0, cs, xs, _, hlen => by
    have hx : xs = [] := List.length_eq_zero.mp (Nat.le_zero.mp hlen)
    subst hx
    rfl
  | Nat.succ f, cs, xs, hcs, hlen => by
    by_cases hx : xs.take cs = []
    · have hxs : xs = [] := by
        rcases List.take_eq_nil_iff.mp hx with h | h
        · exact absurd h hcs
        · exact h
      subst hxs
      simp [chunkRead]
    · have hdrop : (xs.drop cs).length ≤ f := by
        have hl := List.length_drop cs xs
        have hx0 : xs ≠ [] := by
          intro h
          subst h
          simp at hx
        have : 0 < xs.length := List.length_pos.mpr hx0
        omega
      have hrec := chunkRead_flatten f cs (xs.drop cs) hcs hdrop
      simp [chunkRead, hx, hrec]

/-- Every yield of the read loop is non-empty and no longer than the
chunk size. -/
theorem chunkRead_chunks : ∀ (fuel cs : Nat) (xs : List Nat) (c : List Nat),
    c ∈ chunkRead fuel cs xs → c ≠ [] ∧ c.length ≤ cs
  | 0, cs, xs, c, h => by simp [chunkRead] at h
  | Nat.succ f, cs, xs, c, h => by
    by_cases hx : xs.take cs = []
    · simp [chunkRead, hx] at h
    · rw [chunkRead, if_neg hx] at h
      rcases List.mem_cons.mp h with h1 | h1
      · subst h1
        exact ⟨hx, List.length_take_le _ _⟩
      · exact chunkRead_chunks f cs (xs.drop cs) c h1

/-- C6: chunked_iterator first rewinds the source to position 0 when it
is seekable (absence of seek support is not an error: the unseekable
source is read from its current position), then yields each non-empty
read of up to chunk_size bytes in order, terminating on the first
zero-length read — so its yields are non-empty, bounded by chunk_size,
and concatenate to exactly the bytes read; on a 10-byte seekable source
with chunk_size 4 the yielded lengths are [4, 4, 2]. -/
theorem c6_chunked_iterator_spec :
    (∀ (s : ByteStream) (cs : Nat), cs ≠ 0 →
      (∀ c ∈ chunked_iterator s (some cs), c ≠ [] ∧ c.length ≤ cs) ∧
      (chunked_iterator s (some cs)).flatten =
        (if s.seekable then s.data else s.data.drop s.pos)) ∧
    (chunked_iterator ⟨List.range 10, 7, true⟩ (some 4)).map List.length = [4, 4, 2] := by
  constructor
  · intro s cs hcs
    constructor
    · intro c hc
      rw [chunked_iterator] at hc
      simp only [hcs, if_neg] at hc
      exact chunkRead_chunks _ _ _ c hc
    · rw [chunked_iterator]
      simp only [hcs, if_neg]
      exact chunkRead_flatten _ _ _ hcs (le_refl _)
  · decide

/-- Witness for c6_chunked_iterator_spec: a seekable 5-byte source read
with chunk size 2 is rewound and reassembles exactly. -/
theorem c6_witness :
    (chunked_iterator ⟨[1, 2, 3, 4, 5], 3, true⟩ (some 2)).flatten = [1, 2, 3, 4, 5] := by
  have h := (c6_chunked_iterator_spec.1 ⟨[1, 2, 3, 4, 5], 3, true⟩ 2 (by decide)).2
  simpa using h

/-- The allocation loop returns the first candidate not reported as
existing, provided the fuel covers the probes. -/
theorem ganLoop_first (ex : List (List Char)) (cand : Nat → List Char) :
    ∀ (m fuel k : Nat), (∀ j, j < m → cand (k + j) ∈ ex) → cand (k + m) ∉ ex → m ≤ fuel →
    ganLoop ex cand fuel k = some (cand (k + m)) := by
  intro m
  induction m with
  | zero =>
    intro fuel k h1 h2 _
    rw [Nat.add_zero] at h2
    cases fuel with
    | zero => simp [ganLoop, h2]
    | succ f => simp [ganLoop, h2]
  | succ mm ih =>
    intro fuel k h1 h2 h3
    have hk : cand k ∈ ex := by simpa using h1 0 (Nat.succ_pos mm)
    cases fuel with
    | zero => exact absurd h3 (by omega)
    | succ f =>
      have hstep : ganLoop ex cand (f + 1) k = ganLoop ex cand f (k + 1) := by
        simp [ganLoop, hk]
      have h1' : ∀ j, j < mm → cand (k + 1 + j) ∈ ex := by
        intro j hj
        have he : k + 1 + j = k + (j + 1) := by omega
        rw [he]
        exact h1 (j + 1) (by omega)
      have h2' : cand (k + 1 + mm) ∉ ex := by
        have he : k + 1 + mm = k + (mm + 1) := by omega
        rw [he]
        exact h2
      have hrec := ih f (k + 1) h1' h2' (by omega)
      rw [hstep, hrec]
      have he : k + 1 + mm = k + (mm + 1) := by omega
      rw [he]

/-- Any name returned by the allocation loop is a candidate of index at
least the starting counter, and is not reported as existing. -/
theorem ganLoop_result : ∀ (ex : List (List Char)) (cand : Nat → List Char) (fuel k : Nat)
    (r : List Char), ganLoop ex cand fuel k = some r → ∃ j, k ≤ j ∧ r = cand j ∧ cand j ∉ ex
  | ex, cand, 0, k, r, h => by
    by_cases hk : cand k ∈ ex
    · simp [ganLoop, hk] at h
    · refine ⟨k, le_refl _, ?_, hk⟩
      simp [ganLoop, hk] at h
      exact h.symm
  | ex, cand, Nat.succ f, k, r, h => by
    by_cases hk : cand k ∈ ex
    · obtain ⟨j, hj1, hj2, hj3⟩ :=
        ganLoop_result ex cand f (k + 1) r (by simpa [ganLoop, hk] using h)
      exact ⟨j, by omega, hj2, hj3⟩
    · refine ⟨k, le_refl _, ?_, hk⟩
      simp [ganLoop, hk] at h
      exact h.symm

/-- C3: get_available_name returns the first name in the sequence
desired, stem_1+ext, stem_2+ext, ... (integer suffix increasing from 1,
underscore-joined, extension preserved including its leading dot, empty
extension allowed; stem and extension are those of the split of the
sanitized desired name, which coincide with the desired name's for
already-clean names) that is not reported as an existing entry;
concretely, the suffixed candidates for photo.jpg are
photo_k.jpg, allocation returns photo_2.jpg when photo.jpg and
photo_1.jpg exist, and readme yields readme_1 when readme exists. -/
theorem c3_first_free_suffix :
    (∀ (ex : List (List Char)) (name : List Char) (m fuel : Nat),
      (∀ j, j < m → ganCand name j ∈ ex) → ganCand name m ∉ ex → m ≤ fuel →
      get_available_name ex fuel name = some (ganCand name m)) ∧
    (∀ k : Nat, ganCand "photo.jpg".toList (k + 1) =
      "photo_".toList ++ Nat.toDigits 10 (k + 1) ++ ".jpg".toList) ∧
    get_available_name ["photo.jpg".toList, "photo_1.jpg".toList] 3 "photo.jpg".toList =
      some "photo_2.jpg".toList ∧
    get_available_name ["readme".toList] 2 "readme".toList = some "readme_1".toList := by
  refine ⟨?_, ?_, by decide, by decide⟩
  · intro ex name m fuel h1 h2 h3
    have h := ganLoop_first ex (ganCand name) m fuel 0 (by simpa using h1) (by simpa using h2) h3
    simpa [get_available_name] using h
  · intro k
    rfl

/-- Witness for c3_first_free_suffix: with only a.txt occupied the first
suffixed candidate a_1.txt is returned. -/
theorem c3_witness :
    get_available_name ["a.txt".toList] 5 "a.txt".toList = some "a_1.txt".toList :=
  (c3_first_free_suffix.1 ["a.txt".toList] "a.txt".toList 1 5
    (fun j hj => by
      have hj0 : j = 0 := by omega
      subst hj0
      decide)
    (by decide) (by omega))

/-- C5 (amended): only the suffixed candidates produced when the desired
name is occupied are built from the sanitized (secure_filename) form of
the desired name; when the desired name is not already occupied it is
returned verbatim, without sanitization. -/
theorem c5_sanitized_only_when_suffixed (ex : List (List Char)) (name : List Char) (fuel : Nat) :
    (name ∉ ex → get_available_name ex fuel name = some name) ∧
    (∀ r, name ∈ ex → get_available_name ex fuel name = some r →
      ∃ k, 1 ≤ k ∧ r = pjoin (ospath_split (secure_filename name)).1
        ((splitext (ospath_split (secure_filename name)).2).1 ++ '_' ::
          (Nat.toDigits 10 k ++ (splitext (ospath_split (secure_filename name)).2).2))) := by
  constructor
  · intro h
    cases fuel with
    | zero => simp [get_available_name, ganLoop, ganCand, h]
    | succ f => simp [get_available_name, ganLoop, ganCand, h]
  · intro r hin hget
    obtain ⟨j, _, hj2, hj3⟩ := ganLoop_result ex (ganCand name) fuel 0 r hget
    cases j with
    | zero => exact absurd hin (by simpa [ganCand] using hj3)
    | succ k =>
      refine ⟨k + 1, by omega, ?_⟩
      simpa [ganCand] using hj2

/-- C5 counterexample: with nothing occupied, get_available_name returns
the desired name "my file.txt" verbatim, which differs from its
sanitized form secure_filename gives, refuting that the returned name is
always built from the sanitized desired name. -/
theorem c5_counterexample :
    get_available_name [] 1 "my file.txt".toList = some "my file.txt".toList ∧
    secure_filename "my file.txt".toList = "my_file.txt".toList ∧
    "my file.txt".toList ≠ "my_file.txt".toList := by
  refine ⟨by decide, by decide, by decide⟩

/-- Witness for c5_sanitized_only_when_suffixed: an unoccupied desired
name is returned unchanged. -/
theorem c5_witness :
    get_available_name ["b.txt".toList] 4 "a.txt".toList = some "a.txt".toList :=
  (c5_sanitized_only_when_suffixed ["b.txt".toList] "a.txt".toList 4).1 (by decide)

/-- splitSep always returns at least one piece. -/
theorem splitSep_ne_nil (sep : Char) : ∀ l : List Char, splitSep sep l ≠ []
  | [] => by simp [splitSep]
  | c :: cs => by
    rw [splitSep]
    by_cases h : c = sep
    · simp [h]
    · rw [if_neg h]
      cases hs : splitSep sep cs <;> simp

/-- splitSep distributes over an append around a separator. -/
theorem splitSep_append (sep : Char) (a b : List Char) :
    splitSep sep (a ++ sep :: b) = splitSep sep a ++ splitSep sep b := by
  induction a with
  | nil => simp [splitSep]
  | cons c a ih =>
    by_cases h : c = sep
    · simp only [List.cons_append, splitSep, if_pos h, List.append_eq, ih]
    · simp only [List.cons_append, splitSep, if_neg h, List.append_eq, ih]
      cases hs : splitSep sep a with
      | nil => exact absurd hs (splitSep_ne_nil sep a)
      | cons r rs => simp

/-- No piece produced by splitSep contains the separator. -/
theorem splitSep_sep_not_mem (sep : Char) : ∀ (l : List Char), ∀ x ∈ splitSep sep l, sep ∉ x
  | [], x, hx => by
    simp [splitSep] at hx
    simp [hx]
  | c :: cs, x, hx => by
    rw [splitSep] at hx
    by_cases h : c = sep
    · rw [if_pos h] at hx
      rcases List.mem_cons.mp hx with h1 | h1
      · simp [h1]
      · exact splitSep_sep_not_mem sep cs x h1
    · rw [if_neg h] at hx
      cases hs : splitSep sep cs with
      | nil => exact absurd hs (splitSep_ne_nil sep cs)
      | cons r rs =>
        rw [hs] at hx
        rcases List.mem_cons.mp hx with h1 | h1
        · subst h1
          intro hmem
          rcases List.mem_cons.mp hmem with h2 | h2
          · exact h h2.symm
          · exact splitSep_sep_not_mem sep cs r (by rw [hs]; exact List.mem_cons_self r rs) h2
        · exact splitSep_sep_not_mem sep cs x (by rw [hs]; exact List.mem_cons_of_mem r h1)

/-- A separator-free list is a single piece. -/
theorem splitSep_eq_single (sep : Char) : ∀ (x : List Char), sep ∉ x → splitSep sep x = [x]
  | [], _ => by simp [splitSep]
  | c :: cs, h => by
    have hc : c ≠ sep := fun he => h (by simp [he])
    have hcs := splitSep_eq_single sep cs (fun hm => h (List.mem_cons_of_mem c hm))
    rw [splitSep, if_neg hc, hcs]

/-- splitSep inverts joinSep on nonempty separator-free pieces. -/
theorem splitSep_joinSep (sep : Char) : ∀ (L : List (List Char)), L ≠ [] →
    (∀ x ∈ L, sep ∉ x) → splitSep sep (joinSep sep L) = L
  | [], h, _ => absurd rfl h
  | [x], _, hL => by
    rw [joinSep, splitSep_eq_single sep x (hL x (List.mem_cons_self x []))]
  | x :: y :: rest, _, hL => by
    rw [joinSep, splitSep_append sep x (joinSep sep (y :: rest)),
      splitSep_eq_single sep x (hL x (List.mem_cons_self x _)),
      splitSep_joinSep sep (y :: rest) (by simp)
        (fun z hz => hL z (List.mem_cons_of_mem x hz))]
    rfl

/-- joinSep of nonempty pieces is nonempty. -/
theorem joinSep_ne_nil (sep : Char) : ∀ (L : List (List Char)), L ≠ [] →
    (∀ x ∈ L, x ≠ []) → joinSep sep L ≠ []
  | [], h, _ => absurd rfl h
  | [x], _, hL => by
    rw [joinSep]
    exact hL x (List.mem_cons_self x [])
  | x :: y :: rest, _, hL => by
    rw [joinSep]
    have hx : x ≠ [] := hL x (List.mem_cons_self x _)
    cases x with
    | nil => exact absurd rfl hx
    | cons c cs => simp

/-- joinSep distributes over append of nonempty piece lists. -/
theorem joinSep_append2 (sep : Char) : ∀ (A B : List (List Char)), A ≠ [] → B ≠ [] →
    joinSep sep (A ++ B) = joinSep sep A ++ sep :: joinSep sep B
  | [], _, hA, _ => absurd rfl hA
  | [x], B, _, hB => by
    cases B with
    | nil => exact absurd rfl hB
    | cons y rest => rw [List.singleton_append, joinSep, joinSep]
  | x :: y :: rest, B, _, hB => by
    have ih := joinSep_append2 sep (y :: rest) B (by simp) hB
    simp only [List.cons_append, joinSep, List.append_eq]
    rw [List.cons_append] at ih
    rw [ih]
    simp

/-- The last character of a joinSep of nonempty separator-free pieces is
not the separator. -/
theorem joinSep_getLast_ne (sep : Char) : ∀ (L : List (List Char)), L ≠ [] →
    (∀ x ∈ L, x ≠ [] ∧ sep ∉ x) → (joinSep sep L).getLast? ≠ some sep
  | [], h, _ => absurd rfl h
  | [x], _, hL => by
    rw [joinSep]
    intro hlast
    have hx := hL x (List.mem_cons_self x [])
    exact hx.2 (List.mem_of_mem_getLast? hlast)
  | x :: y :: rest, _, hL => by
    rw [joinSep]
    have hyr : joinSep sep (y :: rest) ≠ [] :=
      joinSep_ne_nil sep (y :: rest) (by simp)
        (fun z hz => (hL z (List.mem_cons_of_mem x hz)).1)
    rw [List.getLast?_append_of_ne_nil x (by simp)]
    have hcons : (sep :: joinSep sep (y :: rest)).getLast? = (joinSep sep (y :: rest)).getLast? := by
      have := List.getLast?_append_of_ne_nil [sep] hyr
      simpa using this
    rw [hcons]
    exact joinSep_getLast_ne sep (y :: rest) (by simp)
      (fun z hz => hL z (List.mem_cons_of_mem x hz))

/-- The first character of a joinSep headed by a nonempty piece is that
piece's first character. -/
theorem joinSep_head (sep : Char) (x : List Char) (rest : List (List Char)) (hx : x ≠ []) :
    (joinSep sep (x :: rest)).head? = x.head? := by
  cases rest with
  | nil => rw [joinSep]
  | cons y t =>
    rw [joinSep]
    exact List.head?_append_of_ne_nil _ hx

/-- An ordinary component passes the normpath filter. -/
theorem okCompB_of_okC (x : List Char) (h : okC x) : okCompB x = true := by
  rw [okCompB, if_neg]
  intro hc
  rcases hc with h1 | h1
  · exact h.1 h1
  · exact h.2.1 h1

/-- Without any `..` component, normComps appends exactly the components
that pass the filter. -/
theorem normComps_no_dd (b : Bool) : ∀ (comps acc : List (List Char)),
    (∀ c ∈ comps, c ≠ ['.', '.']) →
    normComps b acc comps = acc ++ comps.filter okCompB
  | [], acc, _ => by simp [normComps]
  | comp :: rest, acc, h => by
    have hrest : ∀ c ∈ rest, c ≠ ['.', '.'] := fun c hc => h c (List.mem_cons_of_mem comp hc)
    have hcomp : comp ≠ ['.', '.'] := h comp (List.mem_cons_self comp rest)
    by_cases hs : comp = [] ∨ comp = ['.']
    · rw [normComps, if_pos hs, normComps_no_dd b rest acc hrest, List.filter_cons,
        show okCompB comp = false from by rw [okCompB, if_pos hs]]
      simp
    · rw [normComps, if_neg hs, if_pos (Or.inl hcomp), normComps_no_dd b rest (acc ++ [comp]) hrest,
        List.filter_cons, show okCompB comp = true from by rw [okCompB, if_neg hs]]
      simp

/-- On absolute paths, normComps preserves the invariant that every
accumulated component is ordinary (never any `..`). -/
theorem normComps_abs_ok : ∀ (comps acc : List (List Char)),
    (∀ a ∈ acc, okC a) → ∀ x ∈ normComps true acc comps, okC x
  | [], acc, hacc, x, hx => hacc x (by simpa [normComps] using hx)
  | comp :: rest, acc, hacc, x, hx => by
    rw [normComps] at hx
    by_cases hs : comp = [] ∨ comp = ['.']
    · rw [if_pos hs] at hx
      exact normComps_abs_ok rest acc hacc x hx
    · rw [if_neg hs] at hx
      by_cases hdd : comp = ['.', '.']
      · have hcond : ¬(comp ≠ ['.', '.'] ∨ (true = false ∧ acc = []) ∨
            acc.getLast? = some ['.', '.']) := by
          intro hc
          rcases hc with h1 | h1 | h1
          · exact h1 hdd
          · exact absurd h1.1 (by simp)
          · exact (hacc _ (List.mem_of_mem_getLast? h1)).2.2 rfl
        rw [if_neg hcond] at hx
        by_cases ha : acc = []
        · rw [if_pos ha] at hx
          exact normComps_abs_ok rest acc hacc x hx
        · rw [if_neg ha] at hx
          exact normComps_abs_ok rest acc.dropLast
            (fun a hha => hacc a (List.mem_of_mem_dropLast hha)) x hx
      · rw [if_pos (Or.inl hdd)] at hx
        refine normComps_abs_ok rest (acc ++ [comp])
          (fun a hha => ?_) x hx
        rcases List.mem_append.mp hha with h1 | h1
        · exact hacc a h1
        · have : a = comp := by simpa using h1
          subst this
          refine ⟨?_, ?_, hdd⟩
          · intro he
            exact hs (Or.inl he)
          · intro he
            exact hs (Or.inr he)

/-- Every component produced by normComps came from the accumulator or
from the input components. -/
theorem normComps_mem (b : Bool) : ∀ (comps acc : List (List Char)),
    ∀ x ∈ normComps b acc comps, x ∈ acc ∨ x ∈ comps
  | [], acc, x, hx => Or.inl (by simpa [normComps] using hx)
  | comp :: rest, acc, x, hx => by
    rw [normComps] at hx
    have step : ∀ acc2 : List (List Char), (x ∈ acc2 → x ∈ acc ∨ x = comp) →
        x ∈ normComps b acc2 rest → x ∈ acc ∨ x ∈ comp :: rest := by
      intro acc2 hsub hx2
      rcases normComps_mem b rest acc2 x hx2 with h1 | h1
      · rcases hsub h1 with h2 | h2
        · exact Or.inl h2
        · exact Or.inr (h2 ▸ List.mem_cons_self comp rest)
      · exact Or.inr (List.mem_cons_of_mem comp h1)
    by_cases hs : comp = [] ∨ comp = ['.']
    · rw [if_pos hs] at hx
      exact step acc (fun h => Or.inl h) hx
    · rw [if_neg hs] at hx
      by_cases hcond : comp ≠ ['.', '.'] ∨ (b = false ∧ acc = []) ∨
          acc.getLast? = some ['.', '.']
      · rw [if_pos hcond] at hx
        refine step (acc ++ [comp]) (fun h => ?_) hx
        rcases List.mem_append.mp h with h1 | h1
        · exact Or.inl h1
        · exact Or.inr (by simpa using h1)
      · rw [if_neg hcond] at hx
        by_cases ha : acc = []
        · rw [if_pos ha] at hx
          exact step acc (fun h => Or.inl h) hx
        · rw [if_neg ha] at hx
          exact step acc.dropLast (fun h => Or.inl (List.mem_of_mem_dropLast h)) hx

/-- On relative paths, normComps preserves the shape: a run of leading
`..` components followed by ordinary components. -/
theorem normComps_ddRun : ∀ (comps acc : List (List Char)), ddRun acc →
    ddRun (normComps false acc comps)
  | [], acc, h => by simpa [normComps] using h
  | comp :: rest, acc, h => by
    obtain ⟨m, N, heq, hN⟩ := h
    rw [normComps]
    by_cases hs : comp = [] ∨ comp = ['.']
    · rw [if_pos hs]
      exact normComps_ddRun rest acc ⟨m, N, heq, hN⟩
    · rw [if_neg hs]
      by_cases hdd : comp = ['.', '.']
      · subst hdd
        by_cases ha : acc = []
        · rw [if_pos (Or.inr (Or.inl ⟨rfl, ha⟩))]
          refine normComps_ddRun rest _ ⟨1, [], ?_, by simp⟩
          simp [ha]
        · by_cases hlast : acc.getLast? = some ['.', '.']
          · rw [if_pos (Or.inr (Or.inr hlast))]
            have hNnil : N = [] := by
              by_contra hNne
              have hacclast : acc.getLast? = N.getLast? := by
                rw [heq]
                exact List.getLast?_append_of_ne_nil _ hNne
              rw [hacclast] at hlast
              exact (hN _ (List.mem_of_mem_getLast? hlast)).2.2 rfl
            refine normComps_ddRun rest _ ⟨m + 1, [], ?_, by simp⟩
            rw [heq, hNnil]
            simp [List.replicate_succ']
          · have hcond : ¬(['.', '.'] ≠ ['.', '.'] ∨ (false = false ∧ acc = []) ∨
                acc.getLast? = some ['.', '.']) := by
              intro hc
              rcases hc with h1 | h1 | h1
              · exact h1 rfl
              · exact ha h1.2
              · exact hlast h1
            rw [if_neg hcond, if_neg ha]
            by_cases hNnil : N = []
            · exfalso
              apply hlast
              rw [heq, hNnil, List.append_nil]
              have hm : 0 < m := by
                by_contra hm0
                have hm0' : m = 0 := by omega
                apply ha
                rw [heq, hNnil, hm0']
                rfl
              rw [show m = (m - 1) + 1 from by omega, List.replicate_succ',
                List.getLast?_append_of_ne_nil _ (by simp)]
              rfl
            · refine normComps_ddRun rest _
                ⟨m, N.dropLast, ?_, fun x hx => hN x (List.mem_of_mem_dropLast hx)⟩
              rw [heq]
              exact List.dropLast_append_of_ne_nil _ hNnil
      · rw [if_pos (Or.inl hdd)]
        refine normComps_ddRun rest _ ⟨m, N ++ [comp], ?_, ?_⟩
        · rw [heq, List.append_assoc]
        · intro x hx
          rcases List.mem_append.mp hx with h1 | h1
          · exact hN x h1
          · have hxc : x = comp := by simpa using h1
            subst hxc
            exact ⟨fun he => hs (Or.inl he), fun he => hs (Or.inr he), hdd⟩

/-- normpath preserves absoluteness. -/
theorem normpath_isabs (p : List Char) (h : isabs p = true) : isabs (normpath p) = true := by
  have hq1 : p.take 1 = ['/'] := by simpa [isabs] using h
  have hq0 : p ≠ [] := by
    intro he
    rw [he] at hq1
    simp at hq1
  rw [normpath, if_neg hq0]
  by_cases h2 : p.take 2 = ['/', '/'] ∧ p.take 3 ≠ ['/', '/', '/']
  · have hisl : (if p.take 1 ≠ ['/'] then 0
        else if p.take 2 = ['/', '/'] ∧ p.take 3 ≠ ['/', '/', '/'] then 2 else (1 : Nat)) = 2 := by
      rw [if_neg (by simp [hq1]), if_pos h2]
    simp only [hisl]
    simp [isabs]
  · have hisl : (if p.take 1 ≠ ['/'] then 0
        else if p.take 2 = ['/', '/'] ∧ p.take 3 ≠ ['/', '/', '/'] then 2 else (1 : Nat)) = 1 := by
      rw [if_neg (by simp [hq1]), if_neg h2]
    simp only [hisl]
    simp [isabs]

/-- On an absolute path that is not a double-slash path and has no `..`
component, normpath keeps one leading slash and the filtered
components. -/
theorem normpath_abs_no_dd (q : List Char) (habs : isabs q = true) (hns : q.take 2 ≠ ['/', '/'])
    (hnodd : ∀ x ∈ splitSep '/' q, x ≠ ['.', '.']) :
    normpath q = '/' :: joinSep '/' ((splitSep '/' q).filter okCompB) := by
  have hq1 : q.take 1 = ['/'] := by simpa [isabs] using habs
  have hq0 : q ≠ [] := by
    intro he
    rw [he] at hq1
    simp at hq1
  have hisl : (if q.take 1 ≠ ['/'] then 0
      else if q.take 2 = ['/', '/'] ∧ q.take 3 ≠ ['/', '/', '/'] then 2 else (1 : Nat)) = 1 := by
    rw [if_neg (by simp [hq1]), if_neg (by intro hc; exact hns hc.1)]
  rw [normpath, if_neg hq0]
  simp only [hisl]
  rw [normComps_no_dd _ (splitSep '/' q) [] hnodd]
  simp

/-- An absolute, single-slash normpath fixpoint is a slash followed by
its joined normalized components. -/
theorem normpath_abs_form (p : List Char) (habs : isabs p = true) (hns : p.take 2 ≠ ['/', '/'])
    (hfix : normpath p = p) :
    p = '/' :: joinSep '/' (normComps true [] (splitSep '/' p)) := by
  have hq1 : p.take 1 = ['/'] := by simpa [isabs] using habs
  have hq0 : p ≠ [] := by
    intro he
    rw [he] at hq1
    simp at hq1
  have hisl : (if p.take 1 ≠ ['/'] then 0
      else if p.take 2 = ['/', '/'] ∧ p.take 3 ≠ ['/', '/', '/'] then 2 else (1 : Nat)) = 1 := by
    rw [if_neg (by simp [hq1]), if_neg (by intro hc; exact hns hc.1)]
  conv_lhs => rw [← hfix]
  rw [normpath, if_neg hq0]
  simp only [hisl]
  have hd1 : (decide (0 < 1)) = true := rfl
  rw [hd1]
  simp

/-- On a nonempty relative path, normpath is the joined relative
components, or a dot when nothing remains. -/
theorem normpath_rel (p : List Char) (hp : p ≠ []) (h : isabs p = false) :
    normpath p = (if joinSep '/' (normComps false [] (splitSep '/' p)) = [] then ['.']
      else joinSep '/' (normComps false [] (splitSep '/' p))) := by
  have hq1 : ¬(p.take 1 = ['/']) := by simpa [isabs] using h
  have hisl : (if p.take 1 ≠ ['/'] then 0
      else if p.take 2 = ['/', '/'] ∧ p.take 3 ≠ ['/', '/', '/'] then 2 else (1 : Nat)) = 0 :=
    if_pos hq1
  rw [normpath, if_neg hp]
  simp only [hisl]
  have hd0 : (decide (0 < 0)) = false := rfl
  rw [hd0]
  simp

/-- Prepending the empty piece to ordinary components and filtering
gives the components back. -/
theorem filter_okCompB_nil (M : List (List Char)) (hM : ∀ x ∈ M, okC x) :
    ([] :: M).filter okCompB = M := by
  rw [List.filter_cons]
  have h0 : okCompB ([] : List Char) = false := rfl
  rw [h0]
  simp [List.filter_eq_self.mpr (fun a ha => okCompB_of_okC a (hM a ha))]

/-- A slash followed by joined ordinary separator-free components is a
normpath fixpoint. -/
theorem normpath_slash_join (M : List (List Char)) (hM : ∀ x ∈ M, okC x ∧ '/' ∉ x) :
    normpath ('/' :: joinSep '/' M) = '/' :: joinSep '/' M := by
  cases M with
  | nil => decide
  | cons x rest =>
    have hx := hM x (List.mem_cons_self x rest)
    have hjne : joinSep '/' (x :: rest) ≠ [] :=
      joinSep_ne_nil '/' _ (by simp) (fun z hz => (hM z hz).1.1)
    have hsplit : splitSep '/' ('/' :: joinSep '/' (x :: rest)) = [] :: x :: rest := by
      rw [splitSep, if_pos rfl, splitSep_joinSep '/' (x :: rest) (by simp)
        (fun z hz => (hM z hz).2)]
    have hhead : (joinSep '/' (x :: rest)).head? = x.head? := joinSep_head '/' x rest hx.1.1
    have habs : isabs ('/' :: joinSep '/' (x :: rest)) = true := by simp [isabs]
    have hns : ('/' :: joinSep '/' (x :: rest)).take 2 ≠ ['/', '/'] := by
      cases hj : joinSep '/' (x :: rest) with
      | nil => exact absurd hj hjne
      | cons c cs =>
        intro hc
        have hcc : c = '/' := by simpa using congrArg (fun l => l.get? 1) hc
        rw [hj] at hhead
        have hcx : c ∈ x := by
          cases x with
          | nil => exact absurd rfl hx.1.1
          | cons d ds =>
            have : c = d := by simpa using hhead
            rw [this]
            exact List.mem_cons_self d ds
        exact hx.2 (hcc ▸ hcx)
    rw [normpath_abs_no_dd _ habs hns (by
      rw [hsplit]
      intro z hz
      rcases List.mem_cons.mp hz with h1 | h1
      · simp [h1]
      · exact fun he => absurd he ((hM z h1).1.2.2))]
    rw [hsplit, filter_okCompB_nil _ (fun z hz => (hM z hz).1)]

/-- Shape of an absolute single-slash storage root that is a normpath
fixpoint: a slash followed by its joined components, all ordinary and
separator-free. -/
theorem root_shape (root : List Char) (hroot : normpath root = root) (habs : isabs root = true)
    (hns : root.take 2 ≠ ['/', '/']) :
    root = '/' :: joinSep '/' (normComps true [] (splitSep '/' root)) ∧
    ∀ x ∈ normComps true [] (splitSep '/' root), okC x ∧ '/' ∉ x := by
  refine ⟨normpath_abs_form root habs hns hroot, fun x hx =>
    ⟨normComps_abs_ok _ [] (by simp) x hx, ?_⟩⟩
  rcases normComps_mem true _ [] x hx with h1 | h1
  · simp at h1
  · exact splitSep_sep_not_mem '/' root x h1

/-- The normalized form of a nonempty relative name is a dot, a dotdot,
a path starting with dotdot-slash, or a join of ordinary separator-free
components. -/
theorem normpath_rel_cases (name : List Char) (hn : name ≠ []) (hnabs : isabs name = false) :
    normpath name = ['.'] ∨ normpath name = ['.', '.'] ∨
    (normpath name).take 3 = ['.', '.', '/'] ∨
    (∃ M, M ≠ [] ∧ (∀ x ∈ M, okC x ∧ '/' ∉ x) ∧ normpath name = joinSep '/' M) := by
  rw [normpath_rel name hn hnabs]
  have hmem : ∀ x ∈ normComps false [] (splitSep '/' name), '/' ∉ x := by
    intro x hx
    rcases normComps_mem false _ [] x hx with h1 | h1
    · simp at h1
    · exact splitSep_sep_not_mem '/' name x h1
  obtain ⟨m, N, heq, hN⟩ := normComps_ddRun (splitSep '/' name) [] ⟨0, [], rfl, by simp⟩
  by_cases hjs : joinSep '/' (normComps false [] (splitSep '/' name)) = []
  · left
    rw [if_pos hjs]
  · rw [if_neg hjs]
    cases m with
    | zero =>
      rw [List.replicate, List.nil_append] at heq
      right; right; right
      refine ⟨N, ?_, fun x hx => ⟨hN x hx, hmem x (heq ▸ hx)⟩, by rw [heq]⟩
      intro hNnil
      apply hjs
      rw [heq, hNnil]
      rfl
    | succ mp =>
      right
      rw [heq, List.replicate_succ, List.cons_append]
      cases hrest : List.replicate mp ['.', '.'] ++ N with
      | nil =>
        left
        rw [joinSep]
      | cons y t =>
        right; left
        rw [joinSep]
        rfl

/-- Joining the storage root with a relative result: either the root is
a bare slash, or the join appends a slash and the name to the root. -/
theorem pjoin_root_shape (root f : List Char) (RC : List (List Char))
    (hform : root = '/' :: joinSep '/' RC)
    (hRC : ∀ x ∈ RC, okC x ∧ '/' ∉ x)
    (hfabs : isabs f = false) :
    (RC ≠ [] ∧ pjoin root f = '/' :: (joinSep '/' RC ++ '/' :: f)) ∨
      (RC = [] ∧ pjoin root f = '/' :: f) := by
  by_cases hRCnil : RC = []
  · right
    refine ⟨hRCnil, ?_⟩
    rw [hform, hRCnil]
    rw [pjoin, if_neg (by simp [hfabs]), if_pos (Or.inr (by rfl))]
    rfl
  · refine Or.inl ⟨hRCnil, ?_⟩
    have hjne : joinSep '/' RC ≠ [] := joinSep_ne_nil '/' RC hRCnil (fun z hz => (hRC z hz).1.1)
    have hlast : root.getLast? ≠ some '/' := by
      rw [hform, show ('/' :: joinSep '/' RC) = ['/'] ++ joinSep '/' RC from rfl,
        List.getLast?_append_of_ne_nil _ hjne]
      exact joinSep_getLast_ne '/' RC hRCnil (fun z hz => ⟨(hRC z hz).1.1, (hRC z hz).2⟩)
    rw [pjoin, if_neg (by simp [hfabs]), if_neg (by
      intro hc
      rcases hc with h1 | h1
      · rw [hform] at h1
        simp at h1
      · exact hlast h1)]
    rw [hform]
    rfl

/-- takeWhile runs through a satisfying prefix and stops at the first
failing element. -/
theorem takeWhile_append_stop (p : Char → Bool) : ∀ (A : List Char) (c : Char) (B : List Char),
    (∀ a ∈ A, p a = true) → p c = false → (A ++ c :: B).takeWhile p = A
  | [], c, B, _, hc => by simp [List.takeWhile, hc]
  | a :: A, c, B, hA, hc => by
    rw [List.cons_append, List.takeWhile_cons, if_pos (hA a (List.mem_cons_self a A)),
      takeWhile_append_stop p A c B (fun z hz => hA z (List.mem_cons_of_mem a hz)) hc]

/-- The final segment os.path.split extracts from a path whose last
component is separator-free is that component, verbatim. -/
theorem ospath_split_tail (a seg : List Char) (hseg : '/' ∉ seg) :
    (ospath_split (a ++ '/' :: seg)).2 = seg := by
  rw [ospath_split]
  have hrev : (a ++ '/' :: seg).reverse = seg.reverse ++ '/' :: a.reverse := by
    simp
  rw [hrev, takeWhile_append_stop _ seg.reverse '/' a.reverse
    (fun z hz => by
      simp only [decide_eq_true_eq]
      intro he
      exact hseg (by rw [← he]; exact List.mem_reverse.mp hz))
    (by simp), List.reverse_reverse]
  split
  · rfl
  · rfl

/-- The first character of a join of ordinary separator-free components
is not the separator. -/
theorem joinSep_head_ne (M : List (List Char)) (hM0 : M ≠ [])
    (hM : ∀ x ∈ M, x ≠ [] ∧ '/' ∉ x) :
    ∀ c, (joinSep '/' M).head? = some c → c ≠ '/' := by
  cases M with
  | nil => exact absurd rfl hM0
  | cons x rest =>
    intro c hc he
    have hx := hM x (List.mem_cons_self x rest)
    rw [joinSep_head '/' x rest hx.1] at hc
    subst he
    exact hx.2 (List.mem_of_mem_head? hc)

/-- A slash-headed path whose second character is not a slash is not a
double-slash path. -/
theorem take2_slash_cons (X : List Char) (h : ∀ c, X.head? = some c → c ≠ '/') :
    ('/' :: X).take 2 ≠ ['/', '/'] := by
  cases X with
  | nil => simp
  | cons c cs =>
    intro hc
    have ht : ('/' :: c :: cs).take 2 = ['/', c] := rfl
    rw [ht] at hc
    injection hc with h1 h2
    injection h2 with h3 h4
    exact h c rfl h3

/-- Core containment: joining the storage root with any name accepted by
safe_join and normalizing yields a normalized path extending the root. -/
theorem path_join_containment (root f : List Char)
    (hroot : normpath root = root) (habs : isabs root = true) (hns : root.take 2 ≠ ['/', '/'])
    (hfabs : isabs f = false)
    (hf : f = [] ∨ f = ['.'] ∨ ∃ M, M ≠ [] ∧ (∀ x ∈ M, okC x ∧ '/' ∉ x) ∧ f = joinSep '/' M) :
    (∃ t, normpath (pjoin root f) = root ++ t) ∧
    normpath (normpath (pjoin root f)) = normpath (pjoin root f) := by
  obtain ⟨hform, hRC⟩ := root_shape root hroot habs hns
  obtain ⟨E, hEsplit, hEnodd, hEcase⟩ :
      ∃ E : List (List Char), splitSep '/' f = E ∧ (∀ x ∈ E, x ≠ ['.', '.']) ∧
        (E.filter okCompB = [] ∨
          (E.filter okCompB = E ∧ E ≠ [] ∧ (∀ x ∈ E, okC x ∧ '/' ∉ x))) := by
    rcases hf with h1 | h1 | h1
    · subst h1
      exact ⟨[[]], rfl, by decide, Or.inl rfl⟩
    · subst h1
      exact ⟨[['.']], rfl, by decide, Or.inl rfl⟩
    · obtain ⟨M, hM0, hMok, hMeq⟩ := h1
      subst hMeq
      exact ⟨M, splitSep_joinSep '/' M hM0 (fun x hx => (hMok x hx).2),
        fun x hx => (hMok x hx).1.2.2,
        Or.inr ⟨List.filter_eq_self.mpr (fun a ha => okCompB_of_okC a (hMok a ha).1), hM0, hMok⟩⟩
  have hfhead : ∀ c, f.head? = some c → c ≠ '/' := by
    rcases hf with h1 | h1 | h1
    · subst h1
      intro c hc
      simp at hc
    · subst h1
      intro c hc
      have hcc : c = '.' := by simpa using hc.symm
      subst hcc
      decide
    · obtain ⟨M, hM0, hMok, hMeq⟩ := h1
      rw [hMeq]
      exact joinSep_head_ne M hM0 (fun x hx => ⟨(hMok x hx).1.1, (hMok x hx).2⟩)
  have hnoddE : ∀ x ∈ [] :: (normComps true [] (splitSep '/' root) ++ E), x ≠ ['.', '.'] := by
    intro x hx
    rcases List.mem_cons.mp hx with h1 | h1
    · subst h1
      decide
    · rcases List.mem_append.mp h1 with h2 | h2
      · exact (hRC x h2).1.2.2
      · exact hEnodd x h2
  have hfilt : ([] :: (normComps true [] (splitSep '/' root) ++ E)).filter okCompB =
      normComps true [] (splitSep '/' root) ++ E.filter okCompB := by
    rw [List.filter_cons]
    have h0 : okCompB ([] : List Char) = false := rfl
    simp only [h0, List.filter_append,
      List.filter_eq_self.mpr (fun a ha => okCompB_of_okC a (hRC a ha).1)]
    simp
  rcases pjoin_root_shape root f _ hform hRC hfabs with ⟨hRCne, hq⟩ | ⟨hRCnil, hq⟩
  · -- root has components: pjoin appends '/' and f to the root
    have hjne : joinSep '/' (normComps true [] (splitSep '/' root)) ≠ [] :=
      joinSep_ne_nil '/' _ hRCne (fun z hz => (hRC z hz).1.1)
    have hqsplit : splitSep '/' (pjoin root f) =
        [] :: (normComps true [] (splitSep '/' root) ++ E) := by
      rw [hq, splitSep, if_pos rfl, splitSep_append, splitSep_joinSep '/' _ hRCne
        (fun z hz => (hRC z hz).2), hEsplit]
    have habsq : isabs (pjoin root f) = true := by
      rw [hq]
      simp [isabs]
    have hnsq : (pjoin root f).take 2 ≠ ['/', '/'] := by
      rw [hq]
      apply take2_slash_cons
      intro c hc
      rw [List.head?_append_of_ne_nil _ hjne] at hc
      exact joinSep_head_ne _ hRCne (fun z hz => ⟨(hRC z hz).1.1, (hRC z hz).2⟩) c hc
    rw [normpath_abs_no_dd _ habsq hnsq (by rw [hqsplit]; exact hnoddE), hqsplit, hfilt]
    rcases hEcase with hE1 | ⟨hEflt, hE0, hEok⟩
    · rw [hE1, List.append_nil]
      refine ⟨⟨[], by rw [List.append_nil]; exact hform.symm⟩, normpath_slash_join _ hRC⟩
    · rw [hEflt]
      constructor
      · refine ⟨'/' :: joinSep '/' E, ?_⟩
        rw [joinSep_append2 '/' _ E hRCne hE0]
        conv_rhs => rw [hform]
        rfl
      · refine normpath_slash_join _ (fun x hx => ?_)
        rcases List.mem_append.mp hx with h2 | h2
        · exact hRC x h2
        · exact hEok x h2
  · -- the root is the bare slash
    have hroot1 : root = ['/'] := by
      rw [hform, hRCnil]
      rfl
    have hqsplit : splitSep '/' (pjoin root f) = [] :: E := by
      rw [hq, splitSep, if_pos rfl, hEsplit]
    have habsq : isabs (pjoin root f) = true := by
      rw [hq]
      simp [isabs]
    have hnsq : (pjoin root f).take 2 ≠ ['/', '/'] := by
      rw [hq]
      exact take2_slash_cons f hfhead
    have hnoddE2 : ∀ x ∈ [] :: E, x ≠ ['.', '.'] := by
      intro x hx
      rcases List.mem_cons.mp hx with h1 | h1
      · subst h1
        decide
      · exact hEnodd x h1
    have hfilt2 : ([] :: E).filter okCompB = E.filter okCompB := by
      rw [List.filter_cons]
      have h0 : okCompB ([] : List Char) = false := rfl
      simp [h0]
    rw [normpath_abs_no_dd _ habsq hnsq (by rw [hqsplit]; exact hnoddE2), hqsplit, hfilt2]
    rcases hEcase with hE1 | ⟨hEflt, hE0, hEok⟩
    · rw [hE1]
      refine ⟨⟨[], by rw [List.append_nil, hroot1]; rfl⟩, ?_⟩
      exact normpath_slash_join [] (by simp)
    · rw [hEflt]
      refine ⟨⟨joinSep '/' E, by rw [hroot1]; rfl⟩, normpath_slash_join E hEok⟩

/-- Every successful path resolution returns a normalized path that
extends the storage root. -/
theorem path_ok_containment (root name p : List Char)
    (hroot : normpath root = root) (habs : isabs root = true) (hns : root.take 2 ≠ ['/', '/'])
    (hok : FileSystemStorage.path root name = Except.ok p) :
    (∃ t, p = root ++ t) ∧ normpath p = p := by
  rw [FileSystemStorage.path] at hok
  cases hsj : safe_join root name with
  | none =>
    rw [hsj] at hok
    cases hok
  | some q =>
    rw [hsj] at hok
    have hpq : normpath q = p := by injection hok
    simp only [safe_join] at hsj
    by_cases hn : name = []
    · simp only [if_pos hn] at hsj
      have hguard : ¬(isabs ([] : List Char) = true ∨ ([] : List Char) = ['.', '.'] ∨
          ([] : List Char).take 3 = ['.', '.', '/']) := by
        decide
      rw [if_neg hguard] at hsj
      have hq : pjoin root [] = q := by injection hsj
      have hcont := path_join_containment root [] hroot habs hns (by decide) (Or.inl rfl)
      rw [hq, hpq] at hcont
      exact hcont
    · simp only [if_neg hn] at hsj
      split at hsj
      · cases hsj
      · rename_i hguard
        have hq : pjoin root (normpath name) = q := by injection hsj
        have hfabs : isabs (normpath name) = false := by
          by_cases hb : isabs (normpath name) = true
          · exact absurd (Or.inl hb) hguard
          · simpa using hb
        have hnabs : isabs name = false := by
          by_cases hb : isabs name = true
          · exact absurd (normpath_isabs name hb) (by simp [hfabs])
          · simpa using hb
        have hfcases : normpath name = [] ∨ normpath name = ['.'] ∨
            ∃ M, M ≠ [] ∧ (∀ x ∈ M, okC x ∧ '/' ∉ x) ∧ normpath name = joinSep '/' M := by
          rcases normpath_rel_cases name hn hnabs with h1 | h1 | h1 | h1
          · exact Or.inr (Or.inl h1)
          · exact absurd (Or.inr (Or.inl h1)) hguard
          · exact absurd (Or.inr (Or.inr h1)) hguard
          · exact Or.inr (Or.inr h1)
        have hcont := path_join_containment root (normpath name) hroot habs hns hfabs hfcases
        rw [hq, hpq] at hcont
        exact hcont

/-- An absolute name is always rejected with SuspiciousFileOperation. -/
theorem path_rejects_abs (root name : List Char) (h : isabs name = true) :
    FileSystemStorage.path root name = Except.error StorageErr.suspiciousFileOperation := by
  have hn : name ≠ [] := by
    intro he
    rw [he] at h
    simp [isabs] at h
  have hsj : safe_join root name = none := by
    rw [safe_join]
    simp [hn, normpath_isabs name h]
  rw [FileSystemStorage.path, hsj]

/-- A name whose normalized form is `..` or starts with `../` is always
rejected with SuspiciousFileOperation. -/
theorem path_rejects_dotdot (root name : List Char) (hn : name ≠ [])
    (h : normpath name = ['.', '.'] ∨ (normpath name).take 3 = ['.', '.', '/']) :
    FileSystemStorage.path root name = Except.error StorageErr.suspiciousFileOperation := by
  have hsj : safe_join root name = none := by
    rw [safe_join]
    simp only [if_neg hn]
    rcases h with h1 | h1
    · simp [h1]
    · simp [h1]
  rw [FileSystemStorage.path, hsj]

/-- C1 (amended): path resolution is pure string manipulation (the model
performs no filesystem call) and, for a normalized absolute single-slash
storage root, either fails with SuspiciousFileOperation or returns a
normalized path extending the root; every absolute-path override fails,
and every name whose normalized form is `..` or begins with `../` fails.
(Names merely containing `..` segments that normalize away inside the
root do resolve — see the counterexample.) -/
theorem c1_path_containment (root : List Char)
    (hroot : normpath root = root) (habs : isabs root = true) (hns : root.take 2 ≠ ['/', '/']) :
    (∀ name, isabs name = true →
      FileSystemStorage.path root name = Except.error StorageErr.suspiciousFileOperation) ∧
    (∀ name, name ≠ [] →
      (normpath name = ['.', '.'] ∨ (normpath name).take 3 = ['.', '.', '/']) →
      FileSystemStorage.path root name = Except.error StorageErr.suspiciousFileOperation) ∧
    (∀ name p, FileSystemStorage.path root name = Except.ok p →
      (∃ t, p = root ++ t) ∧ normpath p = p) :=
  ⟨fun name h => path_rejects_abs root name h,
    fun name hn h => path_rejects_dotdot root name hn h,
    fun name p hok => path_ok_containment root name p hroot habs hns hok⟩

/-- C1 counterexample: the name a/../b contains a `..` segment, yet
resolution succeeds (normalizing to b under the root) instead of failing
with PathTraversal. -/
theorem c1_counterexample :
    ['.', '.'] ∈ splitSep '/' "a/../b".toList ∧
    FileSystemStorage.path "/srv/media".toList "a/../b".toList =
      Except.ok "/srv/media/b".toList :=
  ⟨by decide, by rfl⟩

/-- Witness for c1_path_containment at the concrete root /srv/media: an
absolute override fails, ../x fails, and a/b.txt resolves to a
normalized extension of the root. -/
theorem c1_witness :
    FileSystemStorage.path "/srv/media".toList "/etc/passwd".toList =
      Except.error StorageErr.suspiciousFileOperation ∧
    FileSystemStorage.path "/srv/media".toList "../x".toList =
      Except.error StorageErr.suspiciousFileOperation ∧
    (∃ t, "/srv/media/a/b.txt".toList = "/srv/media".toList ++ t) ∧
      normpath "/srv/media/a/b.txt".toList = "/srv/media/a/b.txt".toList := by
  have hc := c1_path_containment "/srv/media".toList (by decide) (by decide) (by decide)
  exact ⟨hc.1 "/etc/passwd".toList (by decide),
    hc.2.1 "../x".toList (by decide) (Or.inr (by decide)),
    hc.2.2 "a/b.txt".toList "/srv/media/a/b.txt".toList (by rfl)⟩

/-- C4 (amended): path performs no sanitization of the name: any single
nonspecial segment — even one containing spaces or other characters that
secure_filename would remove or replace — is joined under the root
verbatim, and the returned path's final segment is the input segment
unchanged (directory components of multi-segment names are likewise kept,
not stripped). -/
theorem c4_no_sanitization (root seg : List Char)
    (hroot : normpath root = root) (habs : isabs root = true) (hns : root.take 2 ≠ ['/', '/'])
    (hr1 : root ≠ ['/'])
    (hne : seg ≠ []) (hslash : '/' ∉ seg) (hdot : seg ≠ ['.']) (hdd : seg ≠ ['.', '.']) :
    FileSystemStorage.path root seg = Except.ok (root ++ '/' :: seg) ∧
    (ospath_split (root ++ '/' :: seg)).2 = seg := by
  obtain ⟨hform, hRC⟩ := root_shape root hroot habs hns
  have hRCne : normComps true [] (splitSep '/' root) ≠ [] := by
    intro h0
    apply hr1
    rw [hform, h0]
    rfl
  have hsegabs : isabs seg = false := by
    cases seg with
    | nil => exact absurd rfl hne
    | cons c cs =>
      have hc : c ≠ '/' := fun he => hslash (he ▸ List.mem_cons_self c cs)
      simp [isabs, hc]
  have hnorm : normpath seg = seg := by
    rw [normpath_rel seg hne hsegabs, splitSep_eq_single '/' seg hslash,
      normComps_no_dd false [seg] [] (by
        intro c hc
        rw [List.mem_singleton.mp hc]
        exact hdd)]
    have hfseg : ([seg].filter okCompB) = [seg] := List.filter_eq_self.mpr (by
      intro a ha
      rw [List.mem_singleton.mp ha]
      exact okCompB_of_okC seg ⟨hne, hdot, hdd⟩)
    rw [List.nil_append, hfseg, joinSep, if_neg hne]
  have hguard : ¬(isabs seg = true ∨ seg = ['.', '.'] ∨ seg.take 3 = ['.', '.', '/']) := by
    intro hc
    rcases hc with h1 | h1 | h1
    · rw [hsegabs] at h1
      cases h1
    · exact hdd h1
    · apply hslash
      have hmem : '/' ∈ seg.take 3 := by
        rw [h1]
        decide
      exact List.mem_of_mem_take hmem
  have hsj : safe_join root seg = some (pjoin root seg) := by
    simp only [safe_join, if_neg hne, hnorm, if_neg hguard]
  rcases pjoin_root_shape root seg _ hform hRC hsegabs with ⟨_, hq⟩ | ⟨hRCnil, _⟩
  · have hqr : pjoin root seg = root ++ '/' :: seg := by
      rw [hq]
      conv_rhs => rw [hform]
      rfl
    have hjoin : root ++ '/' :: seg =
        '/' :: joinSep '/' (normComps true [] (splitSep '/' root) ++ [seg]) := by
      rw [joinSep_append2 '/' _ [seg] hRCne (by simp), joinSep]
      conv_lhs => rw [hform]
      rfl
    have hall : ∀ x ∈ normComps true [] (splitSep '/' root) ++ [seg], okC x ∧ '/' ∉ x := by
      intro x hx
      rcases List.mem_append.mp hx with h1 | h1
      · exact hRC x h1
      · rw [List.mem_singleton.mp h1]
        exact ⟨⟨hne, hdot, hdd⟩, hslash⟩
    constructor
    · rw [FileSystemStorage.path, hsj, hqr, hjoin]
      show Except.ok (normpath ('/' :: joinSep '/' (normComps true [] (splitSep '/' root) ++ [seg]))) =
        Except.ok ('/' :: joinSep '/' (normComps true [] (splitSep '/' root) ++ [seg]))
      rw [normpath_slash_join _ hall]
    · exact ospath_split_tail root seg hslash
  · exact absurd hRCnil hRCne

/-- C4 counterexample: the name "my file.txt" resolves successfully with
its final segment kept verbatim (space included), which differs from its
sanitized form, refuting that path strips disallowed characters from the
final segment. -/
theorem c4_counterexample :
    FileSystemStorage.path "/srv/media".toList "my file.txt".toList =
      Except.ok "/srv/media/my file.txt".toList ∧
    (ospath_split "/srv/media/my file.txt".toList).2 = "my file.txt".toList ∧
    secure_filename "my file.txt".toList = "my_file.txt".toList ∧
    "my file.txt".toList ≠ "my_file.txt".toList :=
  ⟨by rfl, by rfl, by decide, by decide⟩

/-- Witness for c4_no_sanitization: a segment with a space survives path
resolution verbatim as the final segment. -/
theorem c4_witness :
    FileSystemStorage.path "/srv/media".toList "report 1.txt".toList =
      Except.ok ("/srv/media".toList ++ '/' :: "report 1.txt".toList) ∧
    (ospath_split ("/srv/media".toList ++ '/' :: "report 1.txt".toList)).2 =
      "report 1.txt".toList :=
  c4_no_sanitization "/srv/media".toList "report 1.txt".toList (by decide) (by decide)
    (by decide) (by decide) (by decide) (by decide) (by decide) (by decide)
